import Mathlib

/-!
Shallow embedding of the RPC selection / probing / caching / fallback core of
the permit2-rpc-manager repository (TypeScript sources: `latency-tester.ts`,
`rpc-selector.ts`, `cache-manager.ts`, `permit2-rpc-manager.ts`,
`chainlist-data-source.ts`), together with theorems settling the claims about
its specification.

Modelling conventions:
* JS `number` latencies are `Option Nat`: `none` models `Infinity`, `some n`
  a finite non-negative measurement (`Date.now()` differences).
* JS objects used as string-keyed records are association lists in key
  insertion order; `Object.values` is `List.map Prod.snd`.
* Network I/O is an oracle parameter: a probe of a URL is described by a
  `ProbeOutcome` environment value, a dispatched JSON-RPC call by an
  `Except`-valued `exec` function, a settled probe promise by a
  `SettledOutcome`.
-/

namespace Permit2Rpc

/-- Minimal model of a JSON value as it can appear in a JSON-RPC `result`
field.  `vOther` stands for arrays/objects whose shape the code never
inspects. -/
inductive JsValue : Type
  | vNull
  | vBool (b : Bool)
  | vStr (s : String)
  | vNum (n : Int)
  | vOther
deriving DecidableEq

/-- JSON-RPC error object (`{code, message}`). -/
structure JsonRpcError where
  code : Int
  message : String
deriving DecidableEq

/-- Parsed JSON-RPC response body.  A `none` field models an absent /
`undefined` field (JSON `null` is `some JsValue.vNull`). -/
structure JsonRpcResponse where
  result : Option JsValue := none
  error : Option JsonRpcError := none
deriving DecidableEq

/-- `LatencyTestStatus` from `latency-tester.ts`. -/
inductive LatencyTestStatus : Type
  | ok
  | syncing
  | wrong_bytecode
  | timeout
  | http_error
  | rpc_error
  | network_error
deriving DecidableEq

/-- `LatencyTestResult` from `latency-tester.ts`; `latency = none` models
`Infinity`. -/
structure LatencyTestResult where
  url : String
  latency : Option Nat
  status : LatencyTestStatus
  error : Option String := none
deriving DecidableEq

/-- Environment describing how the two concurrent probe calls
(`eth_getCode` / `eth_syncing`) of `testSingleRpc` turned out: either the
joined promise rejected with an exception (carrying its JS `name` and
`message`), or both calls returned parsed bodies after `elapsed`
milliseconds measured by the shared stopwatch. -/
inductive ProbeOutcome : Type
  | exn (name : String) (msg : String)
  | responses (getCode : JsonRpcResponse) (syncing : JsonRpcResponse) (elapsed : Nat)
deriving DecidableEq

/-- `LatencyTester.testSingleRpc` from `latency-tester.ts`.  The Permit2
bytecode constant (file `permit2-bytecode.ts`, not part of the analysed
sources) is a parameter; it only discriminates `ok` from `wrong_bytecode`. -/
def testSingleRpc (bytecodePrefix : String) (url : String) (o : ProbeOutcome) :
    LatencyTestResult :=
  match o with
  | .exn name msg =>
      let status : LatencyTestStatus :=
        if name = "AbortError" then .timeout
        else if msg.startsWith "HTTP error" then .http_error
        else .network_error
      { url := url, latency := none, status := status, error := some msg }
  | .responses getCodeResponse syncingResponse elapsed =>
      match getCodeResponse.error with
      | some e =>
          { url := url, latency := none, status := .rpc_error,
            error := some ("eth_getCode RPC error " ++ toString e.code ++ " - " ++ e.message) }
      | none =>
        match syncingResponse.error with
        | some e =>
            { url := url, latency := none, status := .rpc_error,
              error := some ("eth_syncing RPC error " ++ toString e.code ++ " - " ++ e.message) }
        | none =>
          if syncingResponse.result ≠ some (.vBool false) then
            { url := url, latency := some elapsed, status := .syncing,
              error := some "Node is not synced" }
          else
            match getCodeResponse.result with
            | some (.vStr code) =>
                if code.startsWith bytecodePrefix then
                  { url := url, latency := some elapsed, status := .ok }
                else
                  { url := url, latency := some elapsed, status := .wrong_bytecode,
                    error := some "Bytecode mismatch" }
            | _ =>
                { url := url, latency := some elapsed, status := .wrong_bytecode,
                  error := some "Invalid bytecode response type" }

/-- `ACCEPTABLE_STATUSES` from `rpc-selector.ts`, in source order. -/
def ACCEPTABLE_STATUSES : List LatencyTestStatus := [.ok, .wrong_bytecode, .syncing]

/-- A status is acceptable for selection. -/
def isAcceptable (s : LatencyTestStatus) : Bool := ACCEPTABLE_STATUSES.contains s

/-- The four hard-failure statuses named by the claim. -/
def isHardFail (s : LatencyTestStatus) : Bool :=
  s == .timeout || s == .http_error || s == .rpc_error || s == .network_error

/-- Elapsed time recorded in a probe environment (0 in the exception case,
where no latency is ever reported). -/
def probeElapsed : ProbeOutcome → Nat
  | .exn _ _ => 0
  | .responses _ _ e => e

@[simp] theorem isAcceptable_ok : isAcceptable .ok = true := rfl

@[simp] theorem isAcceptable_syncing : isAcceptable .syncing = true := rfl

@[simp] theorem isAcceptable_wrong_bytecode : isAcceptable .wrong_bytecode = true := rfl

@[simp] theorem isAcceptable_timeout : isAcceptable .timeout = false := rfl

@[simp] theorem isAcceptable_http_error : isAcceptable .http_error = false := rfl

@[simp] theorem isAcceptable_rpc_error : isAcceptable .rpc_error = false := rfl

@[simp] theorem isAcceptable_network_error : isAcceptable .network_error = false := rfl

/-- C3: for every single-URL probe result, a hard-fail status comes with
latency `+Infinity` (`none`), and an acceptable status (`ok`, `syncing`,
`wrong_bytecode`) comes with the finite measured elapsed time; the
hard-fail statuses are exactly the non-acceptable ones. -/
theorem C3_probe_latency_wellformed (bytecodePrefix url : String) (o : ProbeOutcome) :
    ((testSingleRpc bytecodePrefix url o).latency =
      if isAcceptable (testSingleRpc bytecodePrefix url o).status then
        some (probeElapsed o)
      else none)
    ∧ (∀ s, isHardFail s = !(isAcceptable s)) := by
  refine ⟨?_, fun s => by cases s <;> rfl⟩
  cases o with
  | exn name msg =>
      simp only [testSingleRpc, probeElapsed]
      split_ifs <;> simp_all
  | responses getCodeResponse syncingResponse elapsed =>
      rcases getCodeResponse with ⟨gres, gerr⟩
      rcases syncingResponse with ⟨sres, serr⟩
      cases gerr with
      | some e => simp [testSingleRpc, probeElapsed]
      | none =>
        cases serr with
        | some e => simp [testSingleRpc, probeElapsed]
        | none =>
          by_cases h1 : sres ≠ some (JsValue.vBool false)
          · simp [testSingleRpc, probeElapsed, h1]
          · cases gres with
            | none => simp [testSingleRpc, probeElapsed, h1]
            | some v =>
              cases v with
              | vStr code =>
                  by_cases h2 : code.startsWith bytecodePrefix
                  · simp [testSingleRpc, probeElapsed, h1, h2]
                  · simp [testSingleRpc, probeElapsed, h1, h2]
              | vNull => simp [testSingleRpc, probeElapsed, h1]
              | vBool b => simp [testSingleRpc, probeElapsed, h1]
              | vNum n => simp [testSingleRpc, probeElapsed, h1]
              | vOther => simp [testSingleRpc, probeElapsed, h1]

/-! ### String-keyed records (JS object semantics) -/

/-- JS object property write `m[k] = v`: overwrite in place if the key is
present (keeping its insertion position), otherwise append. -/
def recordSet {κ α : Type} [DecidableEq κ] (m : List (κ × α)) (k : κ) (v : α) :
    List (κ × α) :=
  match m with
  | [] => [(k, v)]
  | (k0, v0) :: rest => if k0 = k then (k0, v) :: rest else (k0, v0) :: recordSet rest k v

/-- JS object property read `m[k]` (`none` = `undefined`). -/
def recordGet {κ α : Type} [DecidableEq κ] (m : List (κ × α)) (k : κ) : Option α :=
  match m with
  | [] => none
  | (k0, v0) :: rest => if k0 = k then some v0 else recordGet rest k

theorem recordGet_set_self {κ α : Type} [DecidableEq κ] (m : List (κ × α)) (k : κ) (v : α) :
    recordGet (recordSet m k v) k = some v := by
  induction m with
  | nil => simp [recordSet, recordGet]
  | cons p rest ih =>
      rcases p with ⟨k0, v0⟩
      by_cases h : k0 = k <;> simp [recordSet, recordGet, h, ih]

theorem recordGet_set_other {κ α : Type} [DecidableEq κ] (m : List (κ × α)) (k k1 : κ) (v : α)
    (h : k1 ≠ k) : recordGet (recordSet m k v) k1 = recordGet m k1 := by
  induction m with
  | nil => simp [recordSet, recordGet, Ne.symm h]
  | cons p rest ih =>
      rcases p with ⟨k0, v0⟩
      by_cases h0 : k0 = k
      · subst h0
        simp [recordSet, recordGet, Ne.symm h]
      · by_cases h1 : k0 = k1 <;> simp [recordSet, recordGet, h0, h1, ih, h]

theorem recordSet_keys_mem {κ α : Type} [DecidableEq κ] (m : List (κ × α)) (k : κ) (v : α)
    (k1 : κ) : k1 ∈ (recordSet m k v).map Prod.fst ↔ k1 ∈ m.map Prod.fst ∨ k1 = k := by
  induction m with
  | nil => simp [recordSet]
  | cons p rest ih =>
      rcases p with ⟨k0, v0⟩
      by_cases h : k0 = k
      · subst h
        simp [recordSet]
        tauto
      · simp [recordSet, h, ih]
        tauto

theorem recordSet_keys_nodup {κ α : Type} [DecidableEq κ] (m : List (κ × α)) (k : κ) (v : α)
    (h : (m.map Prod.fst).Nodup) : ((recordSet m k v).map Prod.fst).Nodup := by
  induction m with
  | nil => simp [recordSet]
  | cons p rest ih =>
      rcases p with ⟨k0, v0⟩
      by_cases h0 : k0 = k
      · subst h0
        simpa [recordSet] using h
      · simp only [List.map_cons, List.nodup_cons] at h
        simp only [recordSet, if_neg h0, List.map_cons, List.nodup_cons]
        refine ⟨?_, ih h.2⟩
        rw [recordSet_keys_mem]
        rintro (hmem | rfl)
        · exact h.1 hmem
        · exact h0 rfl

/-! ### Prober: `testRpcUrls` (settled join over all URLs) -/

/-- Outcome of one settled probe promise from `Promise.allSettled`:
`testSingleRpc` never rejects in normal operation, so `rejected` models an
unexpected rejection, carrying the optional `reason.message` string. -/
inductive SettledOutcome : Type
  | fulfilled (value : LatencyTestResult)
  | rejected (reasonMsg : Option String)
deriving DecidableEq

/-- `result.reason?.message || "Unknown rejection"`: an absent or falsy
(empty) message string falls back to the default. -/
def jsOrUnknown : Option String → String
  | none => "Unknown rejection"
  | some s => if s = "" then "Unknown rejection" else s

/-- `URL → ProbeResult` map, in key insertion order. -/
abbrev LatencyMap := List (String × LatencyTestResult)

/-- The `resultMap[url]` entry written by `testRpcUrls` for one settled
probe: the fulfilled value, or the synthesized `network_error` entry of the
rejection branch. -/
def settledEntry (settle : String → SettledOutcome) (url : String) : LatencyTestResult :=
  match settle url with
  | .fulfilled v => v
  | .rejected m =>
      { url := url, latency := none, status := .network_error,
        error := some (jsOrUnknown m) }

/-- `LatencyTester.testRpcUrls` from `latency-tester.ts`: settle all probes
(the `settle` oracle gives each URL's settled outcome) and collect them into
a record, one write per input URL in order. -/
def testRpcUrls (settle : String → SettledOutcome) (urls : List String) : LatencyMap :=
  if urls.isEmpty then []
  else urls.foldl (fun resultMap url => recordSet resultMap url (settledEntry settle url)) []

theorem testRpcUrls_fold (settle : String → SettledOutcome) :
    ∀ (urls : List String) (acc : LatencyMap),
      ((acc.map Prod.fst).Nodup →
        (((urls.foldl (fun m u => recordSet m u (settledEntry settle u)) acc).map
          Prod.fst).Nodup))
      ∧ (∀ k, k ∈ (urls.foldl (fun m u => recordSet m u (settledEntry settle u)) acc).map
            Prod.fst ↔ k ∈ acc.map Prod.fst ∨ k ∈ urls)
      ∧ (∀ u, recordGet (urls.foldl (fun m u => recordSet m u (settledEntry settle u)) acc) u
          = if u ∈ urls then some (settledEntry settle u) else recordGet acc u) := by
  intro urls
  induction urls with
  | nil => intro acc; simp
  | cons u0 rest ih =>
      intro acc
      refine ⟨fun hnd => (ih _).1 (recordSet_keys_nodup _ _ _ hnd), fun k => ?_, fun u => ?_⟩
      · rw [List.foldl_cons, ((ih _).2.1 k), recordSet_keys_mem]
        simp only [List.mem_cons]
        tauto
      · rw [List.foldl_cons, ((ih _).2.2 u)]
        by_cases hr : u ∈ rest
        · simp [hr]
        · by_cases h0 : u = u0
          · subst h0
            simp [hr, recordGet_set_self]
          · simp [hr, h0, recordGet_set_other _ _ _ _ h0]

/-- C9: for every input URL list and any pattern of settled probe outcomes,
`testRpcUrls` returns a record with exactly one entry per input URL (no URL
lost, none duplicated), each URL's entry depending only on its own probe's
outcome — so one URL's failure cannot remove or alter another URL's entry —
and an unexpectedly rejected probe recorded as `network_error` with latency
`+Infinity`. -/
theorem C9_prober_settled_join (settle : String → SettledOutcome) (urls : List String) :
    ((testRpcUrls settle urls).map Prod.fst).Nodup
    ∧ (∀ u, u ∈ (testRpcUrls settle urls).map Prod.fst ↔ u ∈ urls)
    ∧ (∀ u, u ∈ urls →
        recordGet (testRpcUrls settle urls) u = some (settledEntry settle u))
    ∧ (∀ u m, u ∈ urls → settle u = .rejected m →
        recordGet (testRpcUrls settle urls) u =
          some { url := u, latency := none, status := .network_error,
                 error := some (jsOrUnknown m) }) := by
  have hfold := testRpcUrls_fold settle urls []
  have hdef : testRpcUrls settle urls =
      urls.foldl (fun m u => recordSet m u (settledEntry settle u)) [] := by
    unfold testRpcUrls
    cases urls <;> simp
  refine ⟨?_, fun u => ?_, fun u hu => ?_, fun u m hu hrej => ?_⟩
  · rw [hdef]; exact hfold.1 (by simp)
  · rw [hdef, hfold.2.1 u]; simp
  · rw [hdef, hfold.2.2 u]; simp [hu]
  · rw [hdef, hfold.2.2 u]
    simp only [hu, if_true]
    simp [settledEntry, hrej]

/-! ### Ranking: `RpcSelector._rankResults`

The JS comparator `(a, b) => statusA !== statusB ? statusA - statusB
: a.latency - b.latency` (with `statusX = ACCEPTABLE_STATUSES.indexOf(x.status)`)
is embedded as an `Int`-valued function.  `a.latency - b.latency` on JS
numbers yields `±Infinity` when exactly one side is `Infinity` (only the sign
matters to `sort`) and `NaN` when both are, which `Array.prototype.sort`
treats as `0`; `latCmp` returns the corresponding sign.  `Array.prototype.sort`
with a consistent comparator produces the unique stable sorted order, which
`List.insertionSort` realizes. -/

/-- JS `Array.prototype.indexOf`, returning `-1` when absent. -/
def jsIndexOfAux {α : Type} [DecidableEq α] (x : α) : List α → Int → Int
  | [], _ => -1
  | y :: ys, i => if y = x then i else jsIndexOfAux x ys (i + 1)

def jsIndexOf {α : Type} [DecidableEq α] (l : List α) (x : α) : Int := jsIndexOfAux x l 0

/-- `ACCEPTABLE_STATUSES.indexOf(s)`. -/
def statusIdx (s : LatencyTestStatus) : Int := jsIndexOf ACCEPTABLE_STATUSES s

/-- Sign of the JS subtraction `a.latency - b.latency` as used by the sort
comparator (see module comment of this section). -/
def latCmp : Option Nat → Option Nat → Int
  | none, none => 0
  | none, some _ => 1
  | some _, none => -1
  | some x, some y => (x : Int) - (y : Int)

/-- The sort comparator of `_rankResults`. -/
def cmpResults (a b : LatencyTestResult) : Int :=
  let statusA := statusIdx a.status
  let statusB := statusIdx b.status
  if statusA ≠ statusB then statusA - statusB
  else latCmp a.latency b.latency

/-- Latency as an element of `WithTop Nat` (`Infinity` = `⊤`). -/
def latVal : Option Nat → WithTop Nat
  | none => ⊤
  | some x => (x : WithTop Nat)

/-- The comparator is equivalent to comparing this lexicographic key. -/
def rankKey (a : LatencyTestResult) : Int ×ₗ WithTop Nat :=
  toLex (statusIdx a.status, latVal a.latency)

theorem latCmp_lt_iff (x y : Option Nat) : latCmp x y < 0 ↔ latVal x < latVal y := by
  cases x <;> cases y <;>
    simp [latCmp, latVal, WithTop.coe_lt_top, Nat.cast_lt] <;> omega

theorem latCmp_eq_iff (x y : Option Nat) : latCmp x y = 0 ↔ latVal x = latVal y := by
  cases x <;> cases y <;>
    simp [latCmp, latVal, Nat.cast_inj] <;> omega

theorem cmpResults_lt_iff (a b : LatencyTestResult) :
    cmpResults a b < 0 ↔ rankKey a < rankKey b := by
  unfold cmpResults rankKey
  rw [Prod.Lex.lt_iff]
  by_cases h : statusIdx a.status = statusIdx b.status
  · simp only [h, ne_eq, not_true_eq_false, if_false, latCmp_lt_iff, lt_self_iff_false,
      true_and, false_or]
  · simp only [ne_eq, h, not_false_eq_true, if_true, false_and, or_false]
    omega

theorem cmpResults_eq_iff (a b : LatencyTestResult) :
    cmpResults a b = 0 ↔ rankKey a = rankKey b := by
  unfold cmpResults rankKey
  constructor
  · intro hz
    by_cases h : statusIdx a.status = statusIdx b.status
    · simp only [h, ne_eq, not_true_eq_false, if_false] at hz
      have := (latCmp_eq_iff a.latency b.latency).mp hz
      simp [h, this]
    · simp only [ne_eq, h, not_false_eq_true, if_true] at hz
      omega
  · intro hk
    have hk2 : (statusIdx a.status, latVal a.latency) = (statusIdx b.status, latVal b.latency) :=
      congrArg ofLex hk
    have h1 : statusIdx a.status = statusIdx b.status := congrArg Prod.fst hk2
    have h2 : latVal a.latency = latVal b.latency := congrArg Prod.snd hk2
    simp only [h1, ne_eq, not_true_eq_false, if_false]
    exact (latCmp_eq_iff a.latency b.latency).mpr h2

theorem cmpResults_le_iff (a b : LatencyTestResult) :
    cmpResults a b ≤ 0 ↔ rankKey a ≤ rankKey b := by
  rw [le_iff_lt_or_eq (a := rankKey a), ← cmpResults_lt_iff, ← cmpResults_eq_iff]
  omega

/-- The `Prop`-valued order used to run `List.insertionSort` as the stable
sort of `_rankResults`. -/
def rpcLe (a b : LatencyTestResult) : Prop := cmpResults a b ≤ 0

instance : DecidableRel rpcLe := fun _ _ => inferInstanceAs (Decidable (_ ≤ _))

instance : IsTotal LatencyTestResult rpcLe :=
  ⟨fun a b => by
    simp only [rpcLe, cmpResults_le_iff]
    exact le_total _ _⟩

instance : IsTrans LatencyTestResult rpcLe :=
  ⟨fun a b c hab hbc => by
    simp only [rpcLe, cmpResults_le_iff] at *
    exact le_trans hab hbc⟩

/-- `Object.values(latencyMap).filter(result => result &&
ACCEPTABLE_STATUSES.includes(result.status))` from `_rankResults`
(values are objects, hence always truthy). -/
def validResults (latencyMap : LatencyMap) : List LatencyTestResult :=
  (latencyMap.map Prod.snd).filter fun result => isAcceptable result.status

/-- The sorted valid results of `_rankResults`, before projecting URLs. -/
def rankedValidResults (latencyMap : LatencyMap) : List LatencyTestResult :=
  List.insertionSort rpcLe (validResults latencyMap)

/-- `RpcSelector._rankResults` from `rpc-selector.ts`. -/
def rankResults (latencyMap : LatencyMap) : List String :=
  (rankedValidResults latencyMap).map fun result => result.url

/-- The adjacency relation claimed for the ranking: strictly better status
tier, or equal status and non-decreasing latency. -/
def rankRel (a b : LatencyTestResult) : Prop :=
  statusIdx a.status < statusIdx b.status
    ∨ (a.status = b.status ∧ latVal a.latency ≤ latVal b.latency)

theorem statusIdx_inj_on_acceptable (s t : LatencyTestStatus)
    (hs : isAcceptable s = true) (ht : isAcceptable t = true)
    (h : statusIdx s = statusIdx t) : s = t := by
  revert h
  cases s <;> cases t <;> simp_all <;> decide

theorem mem_rankedValidResults_acceptable (latencyMap : LatencyMap)
    (r : LatencyTestResult) (hr : r ∈ rankedValidResults latencyMap) :
    isAcceptable r.status = true := by
  have hperm := List.perm_insertionSort rpcLe (validResults latencyMap)
  have := hperm.mem_iff.mp hr
  exact (List.mem_filter.mp this).2

theorem orderedInsert_filter_of_pos (p : LatencyTestResult → Bool) (x : LatencyTestResult)
    (hx : p x = true) :
    ∀ (l : List LatencyTestResult),
      (∀ y ∈ l, ¬ rpcLe x y → p y = false) →
      (List.orderedInsert rpcLe x l).filter p = x :: l.filter p := by
  intro l
  induction l with
  | nil => intro _; simp [hx]
  | cons y ys ih =>
      intro hcomp
      by_cases hxy : rpcLe x y
      · rw [List.orderedInsert_of_le rpcLe ys hxy]
        simp [List.filter_cons, hx]
      · have hy : p y = false := hcomp y (List.mem_cons_self y ys) hxy
        have ih2 := ih fun z hz => hcomp z (List.mem_cons_of_mem y hz)
        simp only [List.orderedInsert, if_neg hxy, List.filter_cons, hy]
        simpa using ih2

theorem orderedInsert_filter_of_neg (p : LatencyTestResult → Bool) (x : LatencyTestResult)
    (hx : p x = false) :
    ∀ (l : List LatencyTestResult),
      (List.orderedInsert rpcLe x l).filter p = l.filter p := by
  intro l
  induction l with
  | nil => simp [hx]
  | cons y ys ih =>
      by_cases hxy : rpcLe x y
      · rw [List.orderedInsert_of_le rpcLe ys hxy]
        simp [hx]
      · simp only [List.orderedInsert, if_neg hxy, List.filter_cons]
        rw [ih]

/-- Stability of the sort: the subsequence of elements tied with any fixed
reference element (comparator returns `0`) is unchanged. -/
theorem insertionSort_stable_filter (r0 : LatencyTestResult) :
    ∀ (l : List LatencyTestResult),
      (List.insertionSort rpcLe l).filter (fun x => cmpResults x r0 == 0)
        = l.filter (fun x => cmpResults x r0 == 0) := by
  intro l
  induction l with
  | nil => rfl
  | cons x xs ih =>
      show (List.orderedInsert rpcLe x (List.insertionSort rpcLe xs)).filter _ = _
      by_cases hx : cmpResults x r0 = 0
      · rw [orderedInsert_filter_of_pos _ x (by simp [hx]) _ ?_]
        · rw [ih]
          simp [List.filter_cons, hx]
        · intro y _ hyx
          simp only [beq_eq_false_iff_ne, ne_eq]
          intro hy0
          apply hyx
          have hxk : rankKey x = rankKey r0 := (cmpResults_eq_iff x r0).mp hx
          have hyk : rankKey y = rankKey r0 := (cmpResults_eq_iff y r0).mp hy0
          simp only [rpcLe, cmpResults_le_iff, hxk, hyk, le_refl]
      · rw [orderedInsert_filter_of_neg _ x (by simp [hx])]
        rw [ih]
        simp [List.filter_cons, hx]

/-- C4: the ranking of a probe map (i) projects the URLs of the sorted valid
results, (ii) keeps exactly the probe results whose status is acceptable
(`ok`, `wrong_bytecode`, `syncing`), (iii) is monotone: every adjacent pair
has strictly smaller status index, or equal status with non-decreasing
latency, and (iv) is stable: elements the comparator ties are kept in
probe-map insertion order. -/
theorem C4_ranking_invariants (latencyMap : LatencyMap) :
    rankResults latencyMap = (rankedValidResults latencyMap).map (fun r => r.url)
    ∧ List.Perm (rankedValidResults latencyMap) (validResults latencyMap)
    ∧ (∀ r ∈ rankedValidResults latencyMap, isAcceptable r.status = true)
    ∧ List.Chain' rankRel (rankedValidResults latencyMap)
    ∧ (∀ r0, (rankedValidResults latencyMap).filter (fun x => cmpResults x r0 == 0)
        = (validResults latencyMap).filter (fun x => cmpResults x r0 == 0)) := by
  refine ⟨rfl, List.perm_insertionSort rpcLe _,
    fun r hr => mem_rankedValidResults_acceptable latencyMap r hr, ?_, fun r0 =>
    insertionSort_stable_filter r0 (validResults latencyMap)⟩
  have hsorted : List.Sorted rpcLe (rankedValidResults latencyMap) :=
    List.sorted_insertionSort rpcLe (validResults latencyMap)
  have hpair : List.Pairwise rankRel (rankedValidResults latencyMap) := by
    refine List.Pairwise.imp_of_mem ?_ hsorted
    intro a b ha hb hab
    have haA := mem_rankedValidResults_acceptable latencyMap a ha
    have hbA := mem_rankedValidResults_acceptable latencyMap b hb
    have hk : rankKey a ≤ rankKey b := (cmpResults_le_iff a b).mp hab
    rw [rankKey, rankKey, Prod.Lex.le_iff] at hk
    rcases hk with hlt | ⟨heq, hle⟩
    · exact Or.inl hlt
    · exact Or.inr ⟨statusIdx_inj_on_acceptable _ _ haA hbA heq, hle⟩
  exact hpair.chain'

/-! ### `RpcSelector._findFastestInMap` -/

/-- JS `<` on latency values: `Infinity < y` is `false` for every `y`,
finite `x < Infinity` is `true`. -/
def latLtB : Option Nat → Option Nat → Bool
  | none, _ => false
  | some _, none => true
  | some x, some y => x < y

/-- Loop body of the inner loop of `_findFastestInMap`: keep the first
result of status `s` that is strictly fastest so far
(`!fastestForStatus || result.latency < fastestForStatus.latency`). -/
def scanStep (s : LatencyTestStatus) (fastestForStatus : Option LatencyTestResult)
    (p : String × LatencyTestResult) : Option LatencyTestResult :=
  if p.2.status = s then
    match fastestForStatus with
    | none => some p.2
    | some b => if latLtB p.2.latency b.latency then some p.2 else some b
  else fastestForStatus

/-- Inner loop of `_findFastestInMap` for one status tier: scan the map in
insertion order. -/
def scanStatusFastest (s : LatencyTestStatus) (latencyMap : LatencyMap) :
    Option LatencyTestResult :=
  latencyMap.foldl (scanStep s) none

/-- Outer loop of `_findFastestInMap`: try each acceptable status in priority
order and stop at the first tier that contains a result. -/
def findFastestGo (latencyMap : LatencyMap) :
    List LatencyTestStatus → Option LatencyTestResult
  | [] => none
  | s :: rest =>
    match scanStatusFastest s latencyMap with
    | some r => some r
    | none => findFastestGo latencyMap rest

/-- `RpcSelector._findFastestInMap` from `rpc-selector.ts`. -/
def findFastestInMap (latencyMap : LatencyMap) : Option LatencyTestResult :=
  findFastestGo latencyMap ACCEPTABLE_STATUSES

/-- Proof device: one step of a fold keeping the earliest minimum of a key
function. -/
def minStep {γ : Type} [LinearOrder γ] (f : LatencyTestResult → γ)
    (best : Option LatencyTestResult) (r : LatencyTestResult) :
    Option LatencyTestResult :=
  match best with
  | none => some r
  | some b => if f r < f b then some r else some b

/-- Proof device: fold keeping the earliest minimum of a key function. -/
def foldMinBy {γ : Type} [LinearOrder γ] (f : LatencyTestResult → γ)
    (acc : Option LatencyTestResult) (l : List LatencyTestResult) :
    Option LatencyTestResult :=
  l.foldl (minStep f) acc

theorem foldMinBy_some {γ : Type} [LinearOrder γ] (f : LatencyTestResult → γ) :
    ∀ (l : List LatencyTestResult) (x : LatencyTestResult),
      foldMinBy f (some x) l =
        match foldMinBy f none l with
        | none => some x
        | some h => some (if f h < f x then h else x) := by
  intro l
  induction l with
  | nil => intro x; rfl
  | cons y ys ih =>
      intro x
      have e1 : foldMinBy f (some x) (y :: ys)
          = foldMinBy f (if f y < f x then some y else some x) ys := rfl
      have e2 : foldMinBy f none (y :: ys) = foldMinBy f (some y) ys := rfl
      rw [e1, e2]
      by_cases hyx : f y < f x
      · rw [if_pos hyx, ih]
        cases hM : foldMinBy f none ys with
        | none =>
            show some y = some (if f y < f x then y else x)
            rw [if_pos hyx]
        | some h =>
            show some (if f h < f y then h else y)
              = some (if f (if f h < f y then h else y) < f x
                  then (if f h < f y then h else y) else x)
            by_cases hhy : f h < f y
            · rw [if_pos hhy, if_pos (lt_trans hhy hyx)]
            · rw [if_neg hhy, if_pos hyx]
      · rw [if_neg hyx, ih, ih]
        cases hM : foldMinBy f none ys with
        | none =>
            show some x = some (if f y < f x then y else x)
            rw [if_neg hyx]
        | some h =>
            show some (if f h < f x then h else x)
              = some (if f (if f h < f y then h else y) < f x
                  then (if f h < f y then h else y) else x)
            by_cases hhy : f h < f y
            · rw [if_pos hhy]
            · have hnx : ¬ f h < f x :=
                fun hc => hhy (lt_of_lt_of_le hc (le_of_not_lt hyx))
              rw [if_neg hhy, if_neg hnx, if_neg hyx]

theorem head_insertionSort_eq_foldMinBy :
    ∀ l : List LatencyTestResult,
      (List.insertionSort rpcLe l).head? = foldMinBy rankKey none l := by
  intro l
  induction l with
  | nil => rfl
  | cons x xs ih =>
      have e1 : List.insertionSort rpcLe (x :: xs)
          = List.orderedInsert rpcLe x (List.insertionSort rpcLe xs) := rfl
      have e2 : foldMinBy rankKey none (x :: xs) = foldMinBy rankKey (some x) xs := rfl
      rw [e1, e2, foldMinBy_some]
      cases hS : List.insertionSort rpcLe xs with
      | nil =>
          have hxs : xs = [] := by
            have hp := List.perm_insertionSort rpcLe xs
            rw [hS] at hp
            exact (hp.symm).eq_nil
          subst hxs
          rfl
      | cons h t =>
          have hfold : foldMinBy rankKey none xs = some h := by
            rw [← ih, hS]
            rfl
          rw [hfold]
          simp only
          by_cases hxh : rpcLe x h
          · rw [List.orderedInsert_of_le rpcLe t hxh]
            have : ¬ rankKey h < rankKey x :=
              not_lt.mpr ((cmpResults_le_iff x h).mp hxh)
            rw [if_neg this]
            rfl
          · have hstep : List.orderedInsert rpcLe x (h :: t)
                = h :: List.orderedInsert rpcLe x t := by
              simp only [List.orderedInsert, if_neg hxh]
            rw [hstep]
            have : rankKey h < rankKey x := by
              have := (not_iff_not.mpr (cmpResults_le_iff x h)).mp hxh
              exact lt_of_not_le this
            rw [if_pos this]
            rfl

theorem latLtB_iff (x y : Option Nat) : latLtB x y = true ↔ latVal x < latVal y := by
  cases x <;> cases y <;>
    simp [latLtB, latVal, WithTop.coe_lt_top, Nat.cast_lt]

theorem scanStep_pos (s : LatencyTestStatus) (acc : Option LatencyTestResult)
    (k : String) (r : LatencyTestResult) (hs : r.status = s) :
    scanStep s acc (k, r) = minStep (fun a => latVal a.latency) acc r := by
  unfold scanStep
  rw [if_pos hs]
  cases acc with
  | none => rfl
  | some b =>
      show (if latLtB r.latency b.latency = true then some r else some b)
          = (if latVal r.latency < latVal b.latency then some r else some b)
      by_cases hl : latVal r.latency < latVal b.latency
      · rw [if_pos ((latLtB_iff _ _).mpr hl), if_pos hl]
      · rw [if_neg (fun hc => hl ((latLtB_iff _ _).mp hc)), if_neg hl]

theorem scanStep_neg (s : LatencyTestStatus) (acc : Option LatencyTestResult)
    (k : String) (r : LatencyTestResult) (hs : ¬ r.status = s) :
    scanStep s acc (k, r) = acc := by
  unfold scanStep
  rw [if_neg hs]

theorem scan_foldl_eq (s : LatencyTestStatus) :
    ∀ (l : LatencyMap) (acc : Option LatencyTestResult),
      l.foldl (scanStep s) acc
        = foldMinBy (fun a => latVal a.latency) acc
            ((l.map Prod.snd).filter fun r => r.status == s) := by
  intro l
  induction l with
  | nil => intro acc; rfl
  | cons p rest ih =>
      intro acc
      rcases p with ⟨k, r⟩
      by_cases hs : r.status = s
      · have hfil : (((k, r) :: rest : LatencyMap).map Prod.snd).filter
            (fun x => x.status == s)
            = r :: (rest.map Prod.snd).filter (fun x => x.status == s) := by
          simp [List.filter_cons, hs]
        rw [List.foldl_cons, scanStep_pos s acc k r hs, hfil]
        have hstep : foldMinBy (fun a => latVal a.latency)
            acc (r :: (rest.map Prod.snd).filter (fun x => x.status == s))
            = foldMinBy (fun a => latVal a.latency)
                (minStep (fun a => latVal a.latency) acc r)
                ((rest.map Prod.snd).filter (fun x => x.status == s)) := rfl
        rw [hstep, ih]
      · have hfil : (((k, r) :: rest : LatencyMap).map Prod.snd).filter
            (fun x => x.status == s)
            = (rest.map Prod.snd).filter (fun x => x.status == s) := by
          simp [List.filter_cons, hs]
        rw [List.foldl_cons, scanStep_neg s acc k r hs, hfil, ih]

theorem scanStatusFastest_eq (s : LatencyTestStatus) (latencyMap : LatencyMap) :
    scanStatusFastest s latencyMap
      = foldMinBy (fun a => latVal a.latency) none
          ((latencyMap.map Prod.snd).filter fun r => r.status == s) :=
  scan_foldl_eq s latencyMap none

theorem rankKey_lt_iff_latVal (r b : LatencyTestResult) (h : r.status = b.status) :
    rankKey r < rankKey b ↔ latVal r.latency < latVal b.latency := by
  rw [rankKey, rankKey, Prod.Lex.lt_iff]
  simp [h]

/-- If `minStep` produced `some x`, then `x` is the new element or came from
the accumulator. -/
theorem minStep_scope (acc : Option LatencyTestResult) (z x : LatencyTestResult)
    (hx : minStep rankKey acc z = some x) : x = z ∨ acc = some x := by
  cases acc with
  | none =>
      simp only [minStep, Option.some.injEq] at hx
      exact Or.inl hx.symm
  | some b =>
      simp only [minStep] at hx
      by_cases hlt : rankKey z < rankKey b
      · rw [if_pos hlt] at hx
        simp only [Option.some.injEq] at hx
        exact Or.inl hx.symm
      · rw [if_neg hlt] at hx
        simp only [Option.some.injEq] at hx
        exact Or.inr (by rw [hx])

/-- `minStep` never returns `none`. -/
theorem minStep_ne_none {γ : Type} [LinearOrder γ] (f : LatencyTestResult → γ)
    (acc : Option LatencyTestResult) (r : LatencyTestResult) :
    minStep f acc r ≠ none := by
  cases acc with
  | none => exact fun h => Option.noConfusion h
  | some b =>
      show (if f r < f b then some r else some b) ≠ none
      split_ifs <;> exact fun h => Option.noConfusion h

theorem foldMinBy_key_congr (s : LatencyTestStatus) :
    ∀ (l : List LatencyTestResult) (acc : Option LatencyTestResult),
      (∀ r ∈ l, r.status = s) →
      (∀ b, acc = some b → b.status = s) →
      foldMinBy (fun a => latVal a.latency) acc l = foldMinBy rankKey acc l := by
  intro l
  induction l with
  | nil => intro acc _ _; rfl
  | cons r rest ih =>
      intro acc hl hacc
      have hr : r.status = s := hl r (List.mem_cons_self r rest)
      have hstep : minStep (fun a => latVal a.latency) acc r = minStep rankKey acc r := by
        cases acc with
        | none => rfl
        | some b =>
            have hb : b.status = s := hacc b rfl
            show (if latVal r.latency < latVal b.latency then some r else some b)
                = (if rankKey r < rankKey b then some r else some b)
            by_cases hlt : latVal r.latency < latVal b.latency
            · rw [if_pos hlt, if_pos ((rankKey_lt_iff_latVal r b (hr.trans hb.symm)).mpr hlt)]
            · rw [if_neg hlt,
                if_neg (fun hc => hlt ((rankKey_lt_iff_latVal r b (hr.trans hb.symm)).mp hc))]
      have e1 : foldMinBy (fun a => latVal a.latency) acc (r :: rest)
          = foldMinBy (fun a => latVal a.latency)
              (minStep (fun a => latVal a.latency) acc r) rest := rfl
      have e2 : foldMinBy rankKey acc (r :: rest)
          = foldMinBy rankKey (minStep rankKey acc r) rest := rfl
      rw [e1, e2, hstep]
      refine ih _ (fun x hx => hl x (List.mem_cons_of_mem r hx)) ?_
      intro b hb
      rcases minStep_scope acc r b hb with he | hacc2
      · exact he ▸ hr
      · exact hacc b hacc2

theorem foldMinBy_eq_none_iff (l : List LatencyTestResult)
    (acc : Option LatencyTestResult) :
    foldMinBy rankKey acc l = none ↔ acc = none ∧ l = [] := by
  induction l generalizing acc with
  | nil => simp [foldMinBy]
  | cons r rest ih =>
      have e1 : foldMinBy rankKey acc (r :: rest)
          = foldMinBy rankKey (minStep rankKey acc r) rest := rfl
      rw [e1, ih]
      constructor
      · rintro ⟨hm, _⟩
        exact absurd hm (minStep_ne_none rankKey acc r)
      · rintro ⟨_, hcons⟩
        exact List.noConfusion hcons

/-- Dominant-subset lemma: if some element satisfying `P` is in scope and
`P`-elements always beat non-`P`-elements, the fold over the whole list
equals the fold over the `P`-filtered list. -/
theorem foldMinBy_filter_dominant (P : LatencyTestResult → Bool) :
    ∀ (l : List LatencyTestResult) (acc : Option LatencyTestResult),
      (∃ w, P w = true ∧ (w ∈ l ∨ acc = some w)) →
      (∀ x y, P x = true → P y = false →
        (x ∈ l ∨ acc = some x) → (y ∈ l ∨ acc = some y) → rankKey x < rankKey y) →
      foldMinBy rankKey acc l = foldMinBy rankKey (acc.filter P) (l.filter P) := by
  intro l
  induction l with
  | nil =>
      rintro acc ⟨w, hPw, hw⟩ _
      rcases hw with hmem | hacc
      · exact absurd hmem (List.not_mem_nil w)
      · subst hacc
        simp [foldMinBy, Option.filter, hPw]
  | cons z zs ih =>
      rintro acc ⟨w, hPw, hw⟩ hdom
      have e1 : foldMinBy rankKey acc (z :: zs)
          = foldMinBy rankKey (minStep rankKey acc z) zs := rfl
      have hdom2 : ∀ x y, P x = true → P y = false →
          (x ∈ zs ∨ minStep rankKey acc z = some x) →
          (y ∈ zs ∨ minStep rankKey acc z = some y) → rankKey x < rankKey y := by
        intro x y hPx hPy hx hy
        refine hdom x y hPx hPy ?_ ?_
        · rcases hx with hx | hx
          · exact Or.inl (List.mem_cons_of_mem z hx)
          · rcases minStep_scope acc z x hx with he | hacc2
            · exact Or.inl (he ▸ List.mem_cons_self z zs)
            · exact Or.inr hacc2
        · rcases hy with hy | hy
          · exact Or.inl (List.mem_cons_of_mem z hy)
          · rcases minStep_scope acc z y hy with he | hacc2
            · exact Or.inl (he ▸ List.mem_cons_self z zs)
            · exact Or.inr hacc2
      by_cases hz : P z = true
      · have hfil : (z :: zs).filter P = z :: zs.filter P := by
          simp [List.filter_cons, hz]
        have e2 : foldMinBy rankKey (Option.filter P acc) (z :: zs.filter P)
            = foldMinBy rankKey (minStep rankKey (Option.filter P acc) z) (zs.filter P) := rfl
        rw [e1, hfil, e2]
        have hacceq : Option.filter P (minStep rankKey acc z)
            = minStep rankKey (Option.filter P acc) z := by
          cases acc with
          | none => simp [minStep, Option.filter, hz]
          | some b =>
              by_cases hb : P b = true
              · simp only [minStep, Option.filter, hb, if_true]
                by_cases hlt : rankKey z < rankKey b
                · rw [if_pos hlt]
                  simp [Option.filter, hz]
                · rw [if_neg hlt]
                  simp [Option.filter, hb]
              · have hbf : P b = false := Bool.eq_false_iff.mpr hb
                have hzb : rankKey z < rankKey b :=
                  hdom z b hz hbf (Or.inl (List.mem_cons_self z zs)) (Or.inr rfl)
                simp only [minStep, Option.filter, hbf]
                rw [if_pos hzb]
                simp [Option.filter, hz]
        rw [← hacceq]
        refine ih (minStep rankKey acc z) ?_ hdom2
        cases acc with
        | none => exact ⟨z, hz, Or.inr rfl⟩
        | some b =>
            by_cases hb : P b = true
            · by_cases hlt : rankKey z < rankKey b
              · refine ⟨z, hz, Or.inr ?_⟩
                simp only [minStep]
                rw [if_pos hlt]
              · refine ⟨b, hb, Or.inr ?_⟩
                simp only [minStep]
                rw [if_neg hlt]
            · have hbf : P b = false := Bool.eq_false_iff.mpr hb
              have hzb : rankKey z < rankKey b :=
                hdom z b hz hbf (Or.inl (List.mem_cons_self z zs)) (Or.inr rfl)
              refine ⟨z, hz, Or.inr ?_⟩
              simp only [minStep]
              rw [if_pos hzb]
      · have hzf : P z = false := Bool.eq_false_iff.mpr hz
        have hfil : (z :: zs).filter P = zs.filter P := by
          simp [List.filter_cons, hzf]
        rw [e1, hfil]
        have hacceq : Option.filter P (minStep rankKey acc z) = Option.filter P acc := by
          cases acc with
          | none => simp [minStep, Option.filter, hzf]
          | some b =>
              by_cases hb : P b = true
              · have hbz : rankKey b < rankKey z :=
                  hdom b z hb hzf (Or.inr rfl) (Or.inl (List.mem_cons_self z zs))
                simp only [minStep]
                rw [if_neg (asymm hbz)]
              · have hbf : P b = false := Bool.eq_false_iff.mpr hb
                simp only [minStep]
                split_ifs <;> simp [Option.filter, hzf, hbf]
        rw [← hacceq]
        have hwz : w ≠ z := fun he => hz (he ▸ hPw)
        refine ih (minStep rankKey acc z) ⟨w, hPw, ?_⟩ hdom2
        rcases hw with hmem | hacc
        · rcases List.mem_cons.mp hmem with he | hmem2
          · exact absurd he hwz
          · exact Or.inl hmem2
        · right
          have hwz2 : rankKey w < rankKey z :=
            hdom w z hPw hzf (Or.inr hacc) (Or.inl (List.mem_cons_self z zs))
          rw [hacc]
          simp only [minStep]
          rw [if_neg (asymm hwz2)]

theorem findFastestGo_eq (latencyMap : LatencyMap) :
    ∀ (ss : List LatencyTestStatus),
      List.Pairwise (fun a b => statusIdx a < statusIdx b) ss →
      findFastestGo latencyMap ss
        = foldMinBy rankKey none
            ((latencyMap.map Prod.snd).filter fun r => ss.contains r.status) := by
  intro ss
  induction ss with
  | nil =>
      intro _
      have hfil : (latencyMap.map Prod.snd).filter
          (fun r => ([] : List LatencyTestStatus).contains r.status) = [] := by
        simp
      rw [hfil]
      rfl
  | cons s rest ih =>
      intro hpw
      rw [List.pairwise_cons] at hpw
      obtain ⟨hs_rest, hrest⟩ := hpw
      have hscan : scanStatusFastest s latencyMap
          = foldMinBy rankKey none
              ((latencyMap.map Prod.snd).filter fun r => r.status == s) := by
        rw [scanStatusFastest_eq]
        refine foldMinBy_key_congr s _ none ?_ ?_
        · intro r hr
          exact eq_of_beq (List.mem_filter.mp hr).2
        · intro b hb
          exact Option.noConfusion hb
      show (match scanStatusFastest s latencyMap with
            | some r => some r
            | none => findFastestGo latencyMap rest) = _
      cases hsc : scanStatusFastest s latencyMap with
      | none =>
          rw [hscan] at hsc
          have hCempty : (latencyMap.map Prod.snd).filter (fun r => r.status == s) = [] :=
            ((foldMinBy_eq_none_iff _ _).mp hsc).2
          have hnos : ∀ a ∈ latencyMap.map Prod.snd, (a.status == s) = false := by
            intro a ha
            have := List.filter_eq_nil_iff.mp hCempty a ha
            simpa using this
          simp only
          rw [ih hrest]
          congr 1
          refine List.filter_congr ?_
          intro a ha
          rw [List.contains_cons, hnos a ha, Bool.false_or]
      | some r =>
          rw [hscan] at hsc
          simp only
          have hCne : (latencyMap.map Prod.snd).filter (fun x => x.status == s) ≠ [] := by
            intro hnil
            rw [hnil] at hsc
            exact Option.noConfusion hsc
          obtain ⟨w, hw⟩ := List.exists_mem_of_ne_nil _ hCne
          have hwP : (w.status == s) = true := (List.mem_filter.mp hw).2
          have hwV : w ∈ (latencyMap.map Prod.snd).filter
              (fun x => (s :: rest).contains x.status) := by
            refine List.mem_filter.mpr ⟨(List.mem_filter.mp hw).1, ?_⟩
            rw [List.contains_cons, hwP, Bool.true_or]
          have hdom := foldMinBy_filter_dominant (fun x => x.status == s)
            ((latencyMap.map Prod.snd).filter fun x => (s :: rest).contains x.status) none
            ⟨w, hwP, Or.inl hwV⟩ ?_
          · have hVC : ((latencyMap.map Prod.snd).filter
                (fun x => (s :: rest).contains x.status)).filter (fun x => x.status == s)
                = (latencyMap.map Prod.snd).filter (fun x => x.status == s) := by
              rw [List.filter_filter]
              refine List.filter_congr ?_
              intro a _
              by_cases has : (a.status == s) = true
              · have : a.status = s := eq_of_beq has
                rw [has, List.contains_cons]
                simp [this]
              · have has2 : (a.status == s) = false := Bool.eq_false_iff.mpr has
                rw [has2]
                simp
            have hnone : Option.filter (fun x => x.status == s)
                (none : Option LatencyTestResult) = none := rfl
            rw [hnone] at hdom
            rw [hdom, hVC, hsc]
          · intro x y hPx hPy hx hy
            have hPx2 : (x.status == s) = true := hPx
            have hPy2 : (y.status == s) = false := hPy
            have hxV : x ∈ (latencyMap.map Prod.snd).filter
                (fun x => (s :: rest).contains x.status) := by
              rcases hx with hx | hx
              · exact hx
              · exact Option.noConfusion hx
            have hyV : y ∈ (latencyMap.map Prod.snd).filter
                (fun x => (s :: rest).contains x.status) := by
              rcases hy with hy | hy
              · exact hy
              · exact Option.noConfusion hy
            have hxs : x.status = s := eq_of_beq hPx2
            have hyc : ((s :: rest).contains y.status) = true :=
              (List.mem_filter.mp hyV).2
            have hyr : y.status ∈ rest := by
              rw [List.contains_cons] at hyc
              rcases Bool.or_eq_true_iff.mp hyc with h1 | h2
              · rw [h1] at hPy2
                exact Bool.noConfusion hPy2
              · exact List.elem_iff.mp h2
            have hlt : statusIdx x.status < statusIdx y.status := by
              rw [hxs]
              exact hs_rest y.status hyr
            rw [rankKey, rankKey, Prod.Lex.lt_iff]
            exact Or.inl hlt

theorem findFastestInMap_eq_ranking_head (latencyMap : LatencyMap) :
    findFastestInMap latencyMap = (rankedValidResults latencyMap).head? := by
  rw [rankedValidResults, head_insertionSort_eq_foldMinBy, findFastestInMap,
    findFastestGo_eq latencyMap ACCEPTABLE_STATUSES (by decide)]
  rfl

/-- C5: the `fastestURL` candidate computed by `_findFastestInMap` is exactly
the head of `_rankResults` of the same probe map (`none`/`null` when the
ranking is empty). -/
theorem C5_fastest_is_ranking_head (latencyMap : LatencyMap) :
    (findFastestInMap latencyMap).map (fun r => r.url)
      = (rankResults latencyMap).head? := by
  rw [rankResults, List.head?_map, findFastestInMap_eq_ranking_head]

/-! ### Cache manager (`cache-manager.ts`) and selector (`rpc-selector.ts`)

State-passing embedding of `CacheManager` (in-memory `cache` object,
`cacheLoaded` flag, the Deno KV root value under the cache key, the
`disabled` flag and the TTL) and of the sequential path of
`RpcSelector.getRankedRpcList` (the single-flight branch in which no probe
is in flight for the chain).  `Date.now()` is an explicit `now` parameter;
the prober is an oracle `probe` returning the settled probe map. -/

/-- `ChainCache` from `cache-manager.ts`. -/
structure ChainCache where
  fastestRpc : Option String
  latencyMap : LatencyMap
  lastTested : Nat
deriving DecidableEq

/-- `CacheData`: the whole cache root, keyed by chain id. -/
abbrev CacheData := List (Nat × ChainCache)

/-- The mutable state of a `CacheManager` instance plus the KV root. -/
structure CacheManagerState where
  cache : CacheData
  cacheLoaded : Bool
  kv : Option CacheData
  disabled : Bool
  cacheTtlMs : Nat
deriving DecidableEq

/-- `CacheManager.loadCache`: populate the in-memory cache from KV once
(no-op when disabled or already loaded; a missing KV entry yields `{}`). -/
def loadCache (st : CacheManagerState) : CacheManagerState :=
  if st.disabled || st.cacheLoaded then st
  else { st with cache := st.kv.getD [], cacheLoaded := true }

/-- `CacheManager.saveCache`: persist the in-memory cache to KV
(no-op when disabled or not yet loaded). -/
def saveCache (st : CacheManagerState) : CacheManagerState :=
  if st.disabled || !st.cacheLoaded then st
  else { st with kv := some st.cache }

/-- `CacheManager.getRawChainCache`. -/
def getRawChainCache (st : CacheManagerState) (chainId : Nat) :
    Option ChainCache × CacheManagerState :=
  let st1 := loadCache st
  (recordGet st1.cache chainId, st1)

/-- `CacheManager.getChainCache`: disabled mode forces a miss; otherwise the
raw entry is returned only while fresh (`Date.now() - lastTested < ttl`). -/
def getChainCache (st : CacheManagerState) (chainId : Nat) (now : Nat) :
    Option ChainCache × CacheManagerState :=
  if st.disabled then (none, st)
  else
    let raw := getRawChainCache st chainId
    match raw.1 with
    | some chainCache =>
        if (now : Int) - (chainCache.lastTested : Int) < (st.cacheTtlMs : Int) then
          (some chainCache, raw.2)
        else (none, raw.2)
    | none => (none, raw.2)

/-- `CacheManager.updateChainCache`: no-op when disabled, otherwise replace
the chain's entry (with `lastTested = now`) and persist the whole root. -/
def updateChainCache (st : CacheManagerState) (chainId : Nat)
    (latencyMap : LatencyMap) (fastestRpc : Option String) (now : Nat) :
    CacheManagerState :=
  if st.disabled then st
  else
    let st1 := loadCache st
    let st2 := { st1 with
      cache := recordSet st1.cache chainId
        { fastestRpc := fastestRpc, latencyMap := latencyMap, lastTested := now } }
    saveCache st2

/-- `CacheManager.getFastestRpc` (`chainCache?.fastestRpc ?? null`). -/
def getFastestRpc (st : CacheManagerState) (chainId : Nat) (now : Nat) :
    Option String × CacheManagerState :=
  let r := getChainCache st chainId now
  (r.1.bind fun chainCache => chainCache.fastestRpc, r.2)

/-- `CacheManager.getLatencyMap` (`chainCache?.latencyMap ?? null`): reads
the RAW entry, with no freshness or disabled check. -/
def getLatencyMap (st : CacheManagerState) (chainId : Nat) :
    Option LatencyMap × CacheManagerState :=
  let r := getRawChainCache st chainId
  (r.1.map fun chainCache => chainCache.latencyMap, r.2)

/-- The cache-invalidity test of `getRankedRpcList`:
`!latencyMap || !fastestCachedRpc || !latencyMap[fastestCachedRpc] ||
!ACCEPTABLE_STATUSES.includes(latencyMap[fastestCachedRpc].status)`
(the empty string is falsy in JS, hence the explicit test). -/
def cacheIsInvalid (latencyMap : Option LatencyMap) (fastestCachedRpc : Option String) :
    Bool :=
  match latencyMap, fastestCachedRpc with
  | none, _ => true
  | _, none => true
  | some m, some f =>
      if f = "" then true
      else
        match recordGet m f with
        | none => true
        | some result => !(isAcceptable result.status)

/-- `RpcSelector.getRankedRpcList` from `rpc-selector.ts`, sequential path:
no latency test is in flight for this chain, so the caller is the one that
creates the probe promise, awaits it, writes the cache, and ranks the
resulting map.  Returns the ranked URL list, the updated state and the
number of probe runs (0 or 1).  `rpcUrls` is the whitelist slice
`dataSource.getRpcUrls(chainId)` (consulted only on the probe path). -/
def getRankedRpcList (probe : List String → LatencyMap) (rpcUrls : List String)
    (chainId : Nat) (now : Nat) (st : CacheManagerState) :
    List String × CacheManagerState × Nat :=
  let r1 := getLatencyMap st chainId
  let r2 := getFastestRpc r1.2 chainId now
  if cacheIsInvalid r1.1 r2.1 then
    if rpcUrls.isEmpty then ([], r2.2, 0)
    else
      let latencyMap := probe rpcUrls
      let newFastest := findFastestInMap latencyMap
      let st3 := updateChainCache r2.2 chainId latencyMap
        (newFastest.map fun r => r.url) now
      (rankResults latencyMap, st3, 1)
  else
    (rankResults (r1.1.getD []), r2.2, 0)

/-- A freshly constructed manager state (nothing loaded, empty KV). -/
def initialCacheState (cacheTtlMs : Nat) : CacheManagerState :=
  { cache := [], cacheLoaded := false, kv := none, disabled := false,
    cacheTtlMs := cacheTtlMs }

theorem rankResults_of_no_acceptable (latencyMap : LatencyMap)
    (hfail : ∀ p ∈ latencyMap, isAcceptable p.2.status = false) :
    rankResults latencyMap = [] := by
  have hval : validResults latencyMap = [] := by
    rw [validResults, List.filter_eq_nil_iff]
    intro a ha
    rcases List.mem_map.mp ha with ⟨p, hp, rfl⟩
    rw [hfail p hp]
    exact Bool.noConfusion
  rw [rankResults, rankedValidResults, hval]
  rfl

theorem findFastestInMap_of_no_acceptable (latencyMap : LatencyMap)
    (hfail : ∀ p ∈ latencyMap, isAcceptable p.2.status = false) :
    findFastestInMap latencyMap = none := by
  have hval : validResults latencyMap = [] := by
    rw [validResults, List.filter_eq_nil_iff]
    intro a ha
    rcases List.mem_map.mp ha with ⟨p, hp, rfl⟩
    rw [hfail p hp]
    exact Bool.noConfusion
  rw [findFastestInMap_eq_ranking_head, rankedValidResults, hval]
  rfl

/-- The state produced by the first `getRankedRpcList` on a cold cache when
probing yields `latencyMap` and no acceptable URL. -/
def allFailState (latencyMap : LatencyMap) (chainId now ttl : Nat) : CacheManagerState :=
  { cache := [(chainId, { fastestRpc := none, latencyMap := latencyMap, lastTested := now })],
    cacheLoaded := true,
    kv := some [(chainId, { fastestRpc := none, latencyMap := latencyMap, lastTested := now })],
    disabled := false, cacheTtlMs := ttl }

theorem getRankedRpcList_cold_allfail (probe : List String → LatencyMap)
    (rpcUrls : List String) (chainId now ttl : Nat) (hne : rpcUrls ≠ [])
    (hfail : ∀ p ∈ probe rpcUrls, isAcceptable p.2.status = false) :
    getRankedRpcList probe rpcUrls chainId now (initialCacheState ttl)
      = ([], allFailState (probe rpcUrls) chainId now ttl, 1) := by
  have hne2 : rpcUrls.isEmpty = false := by
    cases rpcUrls with
    | nil => exact absurd rfl hne
    | cons a l => rfl
  have hra : rankResults (probe rpcUrls) = [] := rankResults_of_no_acceptable _ hfail
  have hff : findFastestInMap (probe rpcUrls) = none :=
    findFastestInMap_of_no_acceptable _ hfail
  simp only [getRankedRpcList, getLatencyMap, getFastestRpc, getChainCache,
    getRawChainCache, loadCache, saveCache, updateChainCache, initialCacheState,
    allFailState, recordGet, recordSet, cacheIsInvalid, hne2, hra, hff]
  simp

theorem getRankedRpcList_allfail_reprobes (probe : List String → LatencyMap)
    (rpcUrls : List String) (latencyMap : LatencyMap) (chainId now now2 ttl : Nat)
    (hne : rpcUrls ≠ []) :
    (getRankedRpcList probe rpcUrls chainId now2
        (allFailState latencyMap chainId now ttl)).2.2 = 1
    ∧ (getRankedRpcList probe rpcUrls chainId now2
        (allFailState latencyMap chainId now ttl)).1 = rankResults (probe rpcUrls) := by
  have hne2 : rpcUrls.isEmpty = false := by
    cases rpcUrls with
    | nil => exact absurd rfl hne
    | cons a l => rfl
  have hfast : (getFastestRpc (allFailState latencyMap chainId now ttl) chainId now2).1
      = none := by
    simp only [getFastestRpc, getChainCache, getRawChainCache, loadCache, allFailState,
      recordGet]
    simp only [Bool.or_true, if_true]
    split
    · rfl
    · split
      · rfl
      · rfl
  have hlm : (getLatencyMap (allFailState latencyMap chainId now ttl) chainId)
      = (some latencyMap, allFailState latencyMap chainId now ttl) := by
    simp [getLatencyMap, getRawChainCache, loadCache, allFailState, recordGet]
  have hstate : (getLatencyMap (allFailState latencyMap chainId now ttl) chainId).2
      = allFailState latencyMap chainId now ttl := by rw [hlm]
  constructor
  · simp only [getRankedRpcList, hlm]
    rw [show cacheIsInvalid (some latencyMap)
        (getFastestRpc (allFailState latencyMap chainId now ttl) chainId now2).1 = true by
      rw [hfast]; rfl]
    simp [hne2]
  · simp only [getRankedRpcList, hlm]
    rw [show cacheIsInvalid (some latencyMap)
        (getFastestRpc (allFailState latencyMap chainId now ttl) chainId now2).1 = true by
      rw [hfast]; rfl]
    simp [hne2]

/-- C1 amended claim: on a chain whose whitelist URLs all probe as hard-fail
statuses, `getRankedRpcList` returns `[]`, runs the prober once, and writes
the cache entry with `fastestRpc = none`; but a second call within the TTL
does NOT reuse that entry — the `null` fastest URL makes the cached entry
invalid, so the prober runs again (returning `[]` again). -/
theorem C1_amended_empty_ranking_reprobes (probe : List String → LatencyMap)
    (rpcUrls : List String) (chainId now ttl : Nat) (hne : rpcUrls ≠ [])
    (hfail : ∀ p ∈ probe rpcUrls, isAcceptable p.2.status = false) :
    (getRankedRpcList probe rpcUrls chainId now (initialCacheState ttl)).1 = []
    ∧ (getRankedRpcList probe rpcUrls chainId now (initialCacheState ttl)).2.2 = 1
    ∧ recordGet (getRankedRpcList probe rpcUrls chainId now
        (initialCacheState ttl)).2.1.cache chainId
        = some { fastestRpc := none, latencyMap := probe rpcUrls, lastTested := now }
    ∧ (getRankedRpcList probe rpcUrls chainId now
        (getRankedRpcList probe rpcUrls chainId now (initialCacheState ttl)).2.1).2.2 = 1
    ∧ (getRankedRpcList probe rpcUrls chainId now
        (getRankedRpcList probe rpcUrls chainId now (initialCacheState ttl)).2.1).1 = [] := by
  have h1 := getRankedRpcList_cold_allfail probe rpcUrls chainId now ttl hne hfail
  have h2 := getRankedRpcList_allfail_reprobes probe rpcUrls (probe rpcUrls)
    chainId now now ttl hne
  have hra : rankResults (probe rpcUrls) = [] := rankResults_of_no_acceptable _ hfail
  rw [h1]
  refine ⟨rfl, rfl, ?_, ?_, ?_⟩
  · simp [allFailState, recordGet]
  · exact h2.1
  · rw [h2.2, hra]

/-- A probe oracle under which every URL times out. -/
def c1Probe : List String → LatencyMap := fun urls =>
  urls.map fun u => (u, { url := u, latency := none, status := .timeout, error := some "t" })

/-- C1 counterexample: with a single whitelist URL that probes as `timeout`,
the first `getRankedRpcList` returns `[]` and writes `fastestRpc = null`,
but the second call (well within the 1 h TTL) invokes the prober again
(probe count 1, not 0) — the claim's "no re-probe" part is false. -/
theorem C1_counterexample_second_call_reprobes :
    (getRankedRpcList c1Probe ["https://a"] 100 1000 (initialCacheState 3600000)).1 = []
    ∧ (recordGet (getRankedRpcList c1Probe ["https://a"] 100 1000
        (initialCacheState 3600000)).2.1.cache 100).map
          (fun c => c.fastestRpc) = some none
    ∧ ¬ ((getRankedRpcList c1Probe ["https://a"] 100 1000
        (getRankedRpcList c1Probe ["https://a"] 100 1000
          (initialCacheState 3600000)).2.1).2.2 = 0) := by
  decide

/-- C8: with `disableCache = true`, every `getChainCache` read misses, every
`updateChainCache` write is a no-op, and `getRankedRpcList` never touches
the state but still runs the prober — so two successive calls (hence two
successive `send`s) each trigger an independent probe run. -/
theorem C8_disabled_cache (probe : List String → LatencyMap) (rpcUrls : List String)
    (chainId now : Nat) (st : CacheManagerState) (hd : st.disabled = true)
    (hne : rpcUrls ≠ []) :
    (∀ cid n, (getChainCache st cid n).1 = none)
    ∧ (∀ cid lm f n, updateChainCache st cid lm f n = st)
    ∧ (getRankedRpcList probe rpcUrls chainId now st).2.1 = st
    ∧ (getRankedRpcList probe rpcUrls chainId now st).2.2 = 1
    ∧ (getRankedRpcList probe rpcUrls chainId now
        (getRankedRpcList probe rpcUrls chainId now st).2.1).2.2 = 1 := by
  have hne2 : rpcUrls.isEmpty = false := by
    cases rpcUrls with
    | nil => exact absurd rfl hne
    | cons a l => rfl
  have hcc : ∀ cid n, (getChainCache st cid n).1 = none := by
    intro cid n
    simp [getChainCache, hd]
  have hup : ∀ cid lm f n, updateChainCache st cid lm f n = st := by
    intro cid lm f n
    simp [updateChainCache, hd]
  have hmain : getRankedRpcList probe rpcUrls chainId now st
      = (rankResults (probe rpcUrls), st, 1) := by
    have hload : loadCache st = st := by simp [loadCache, hd]
    have hfast : getFastestRpc st chainId now = (none, st) := by
      simp [getFastestRpc, getChainCache, hd]
    have hlm2 : (getLatencyMap st chainId).2 = st := by
      simp [getLatencyMap, getRawChainCache, hload]
    have hinv : cacheIsInvalid (getLatencyMap st chainId).1 none = true := by
      cases (getLatencyMap st chainId).1 <;> rfl
    simp only [getRankedRpcList, hlm2, hfast, hinv, if_true, hne2,
      Bool.false_eq_true, if_false, hup]
  exact ⟨hcc, hup, by rw [hmain], by rw [hmain], by rw [hmain]; rw [hmain]⟩

/-- C10 (implicit): when the cached entry is valid (fresh, non-null fastest
URL whose map entry has an acceptable status), `getRankedRpcList` returns
the ranking of the cached probe map, runs no probe, and never consults the
whitelist — the result is identical for any whitelist contents, so a
persisted cache can serve URLs absent from the whitelist of this process. -/
theorem C10_valid_cache_ignores_whitelist (probe probe2 : List String → LatencyMap)
    (rpcUrls rpcUrls2 : List String) (chainId now : Nat) (st : CacheManagerState)
    (hvalid : cacheIsInvalid (getLatencyMap st chainId).1
      (getFastestRpc (getLatencyMap st chainId).2 chainId now).1 = false) :
    getRankedRpcList probe rpcUrls chainId now st
      = (rankResults ((getLatencyMap st chainId).1.getD []),
          (getFastestRpc (getLatencyMap st chainId).2 chainId now).2, 0)
    ∧ getRankedRpcList probe rpcUrls chainId now st
      = getRankedRpcList probe2 rpcUrls2 chainId now st := by
  constructor
  · simp only [getRankedRpcList, hvalid, Bool.false_eq_true, if_false]
  · simp only [getRankedRpcList, hvalid, Bool.false_eq_true, if_false]

/-! ### Dispatcher: `Permit2RpcManager.executeRpcCall` and `Permit2RpcManager.send` -/

/-- The per-attempt errors thrown by `executeRpcCall` (as `Error` values in
the source; `rethrown` covers network/parse exceptions rethrown unchanged). -/
inductive RpcCallError : Type
  | timeoutError (timeoutMs : Nat)
  | httpError (status : Nat) (statusText : String)
  | rpcError (code : Int) (message : String)
  | rethrown (name : String) (msg : String)
deriving DecidableEq

/-- Environment for one `executeRpcCall` fetch: either fetch (or the JSON
parse) threw — carrying the exception's JS `name` and `message` — or a
response arrived with the given HTTP status and parsed JSON-RPC body. -/
inductive FetchOutcome : Type
  | exn (name : String) (msg : String)
  | resp (status : Nat) (statusText : String) (body : JsonRpcResponse)
deriving DecidableEq

/-- `Response.ok`: HTTP status in the 2xx range. -/
def responseOk (status : Nat) : Bool := decide (200 ≤ status) && decide (status ≤ 299)

/-- `Permit2RpcManager.executeRpcCall` from `permit2-rpc-manager.ts`.
Classification in source order: abort ⇒ timeout error, other exceptions
rethrown; non-2xx ⇒ HTTP error; body `error` present ⇒ RPC error; otherwise
the body's `result` is returned.  When `result` is `undefined` the source
only logs a warning (`RPC response ... had undefined result`) and still
returns it — there is no failure path for a body lacking both fields. -/
def executeRpcCall (requestTimeoutMs : Nat) (o : FetchOutcome) :
    Except RpcCallError (Option JsValue) :=
  match o with
  | .exn name msg =>
      if name = "AbortError" then .error (.timeoutError requestTimeoutMs)
      else .error (.rethrown name msg)
  | .resp status statusText body =>
      if !(responseOk status) then .error (.httpError status statusText)
      else
        match body.error with
        | some e => .error (.rpcError e.code e.message)
        | none => .ok body.result

/-- C2 counterexample: a 200 response whose body has neither `result` nor
`error` makes `executeRpcCall` return successfully (with the `undefined`
result), not fail with any error — the code has no `MalformedResponse`
path. -/
theorem C2_counterexample_missing_result_returns_ok :
    executeRpcCall 10000 (.resp 200 "OK" { result := none, error := none })
      = .ok none
    ∧ (executeRpcCall 10000 (.resp 200 "OK" { result := none, error := none })).isOk
      = true := by
  exact ⟨rfl, rfl⟩

/-- C2 amended: for every 2xx upstream response whose parseable body contains
neither `result` nor `error`, `executeRpcCall` does not fail: it logs a
warning and returns the absent (`undefined`) result as the call's value. -/
theorem C2_amended_missing_result_returned (requestTimeoutMs status : Nat)
    (statusText : String) (body : JsonRpcResponse) (hok : responseOk status = true)
    (hres : body.result = none) (herr : body.error = none) :
    executeRpcCall requestTimeoutMs (.resp status statusText body) = .ok none := by
  simp [executeRpcCall, hok, herr, hres]

/-- Terminal outcome of `send`: no endpoints at all, or every attempt failed
(carrying the last attempt's error, `none` when no URL was attempted). -/
inductive SendError (E : Type) : Type
  | noEndpoints
  | allEndpointsFailed (lastError : Option E)
deriving DecidableEq

/-- Per-chain round-robin index map of `Permit2RpcManager`
(`rpcIndexMap`). -/
structure DispatchState where
  rpcIndexMap : List (Nat × Nat)
deriving DecidableEq

/-- The attempt loop of `send`: iterate `i = 0 … n-1` over
`list[(startIndex + i) % n]` (the fuel argument counts the remaining
iterations, so `i = list.length - fuel`).  `if (!rpcUrl) continue` skips a
falsy (empty) URL without an attempt; a failed attempt records `lastError`.
Returns the outcome together with the attempted URLs in order. -/
def sendLoop {E V : Type} (exec : String → Except E V) (list : List String)
    (startIndex : Nat) : Nat → Option E → Except (SendError E) V × List String
  | 0, lastError => (.error (.allEndpointsFailed lastError), [])
  | Nat.succ rem, lastError =>
      let i := list.length - Nat.succ rem
      let listIndex := (startIndex + i) % list.length
      let rpcUrl := list.getD listIndex ""
      if rpcUrl = "" then sendLoop exec list startIndex rem lastError
      else
        match exec rpcUrl with
        | .ok v => (.ok v, [rpcUrl])
        | .error e =>
            let r := sendLoop exec list startIndex rem (some e)
            (r.1, rpcUrl :: r.2)

/-- Round-robin bookkeeping of `send`: read the chain's index
(`rpcIndexMap.get(chainId) || 0`), start at `currentIndex % n`, immediately
store `(currentIndex + 1) % n` for the next call. -/
def sendRoundRobin (st : DispatchState) (chainId n : Nat) : Nat × DispatchState :=
  let currentIndex := (recordGet st.rpcIndexMap chainId).getD 0
  (currentIndex % n,
    ⟨recordSet st.rpcIndexMap chainId ((currentIndex + 1) % n)⟩)

/-- `Permit2RpcManager.send` from `permit2-rpc-manager.ts`, given the ranked
list obtained from the selector and an `exec` oracle standing for
`executeRpcCall` on each URL.  Returns (outcome, attempted URLs, new
dispatcher state). -/
def send {E V : Type} (exec : String → Except E V) (chainId : Nat)
    (rankedRpcList : List String) (st : DispatchState) :
    Except (SendError E) V × List String × DispatchState :=
  if rankedRpcList.length = 0 then (.error .noEndpoints, [], st)
  else
    let rr := sendRoundRobin st chainId rankedRpcList.length
    let r := sendLoop exec rankedRpcList rr.1 rankedRpcList.length none
    (r.1, r.2, rr.2)

/-- The start index `send` uses for a given state. -/
def sendStartIndex (st : DispatchState) (chainId n : Nat) : Nat :=
  ((recordGet st.rpcIndexMap chainId).getD 0) % n

/-- Start indices of `m` back-to-back `send` calls on an unchanged ranked
list. -/
def sendStarts {E V : Type} (exec : String → Except E V) (chainId : Nat)
    (rankedRpcList : List String) : Nat → DispatchState → List Nat
  | 0, _ => []
  | Nat.succ m, st =>
      sendStartIndex st chainId rankedRpcList.length
        :: sendStarts exec chainId rankedRpcList m
            (send exec chainId rankedRpcList st).2.2

theorem send_state_update {E V : Type} (exec : String → Except E V) (chainId : Nat)
    (list : List String) (st : DispatchState) (hn : list.length ≠ 0) :
    (send exec chainId list st).2.2
      = ⟨recordSet st.rpcIndexMap chainId
          (((recordGet st.rpcIndexMap chainId).getD 0 + 1) % list.length)⟩ := by
  simp [send, sendRoundRobin, hn]

/-- C6: a `send` on a non-empty ranked list of length `n` reads the chain's
round-robin index `i` (default 0), starts at `i % n`, and stores
`(i + 1) % n` before its first attempt; consequently, `m` back-to-back
`send` calls with an unchanged list start at the consecutive indices
`i, i + 1, …, i + m − 1 (mod n)`. -/
theorem C6_round_robin_starts {E V : Type} (exec : String → Except E V)
    (chainId : Nat) (list : List String) (st : DispatchState) (m : Nat)
    (hn : 0 < list.length) :
    (sendRoundRobin st chainId list.length
      = (((recordGet st.rpcIndexMap chainId).getD 0) % list.length,
        ⟨recordSet st.rpcIndexMap chainId
          (((recordGet st.rpcIndexMap chainId).getD 0 + 1) % list.length)⟩))
    ∧ sendStarts exec chainId list m st
      = (List.range m).map
          (fun k => ((recordGet st.rpcIndexMap chainId).getD 0 + k) % list.length) := by
  refine ⟨rfl, ?_⟩
  induction m generalizing st with
  | zero => rfl
  | succ m ih =>
      have hst := send_state_update exec chainId list st (Nat.pos_iff_ne_zero.mp hn)
      have hstarts : sendStarts exec chainId list (m + 1) st
          = sendStartIndex st chainId list.length
            :: sendStarts exec chainId list m (send exec chainId list st).2.2 := rfl
      rw [hstarts, hst, ih]
      rw [List.range_succ_eq_map, List.map_cons, List.map_map]
      have hget : (recordGet
          (recordSet st.rpcIndexMap chainId
            (((recordGet st.rpcIndexMap chainId).getD 0 + 1) % list.length)) chainId).getD 0
          = ((recordGet st.rpcIndexMap chainId).getD 0 + 1) % list.length := by
        rw [recordGet_set_self]
        rfl
      simp only [List.cons.injEq]
      constructor
      · simp [sendStartIndex]
      · simp only [hget]
        refine List.map_congr_left ?_
        intro k _
        simp only [Function.comp_apply]
        rw [Nat.mod_add_mod]
        congr 1
        omega

/-- Proof device: the attempt loop as a recursion over the rotated URL
list (`sendLoop` is proven equal to it below). -/
def sendAttempts {E V : Type} (exec : String → Except E V) :
    List String → Option E → Except (SendError E) V × List String
  | [], lastError => (.error (.allEndpointsFailed lastError), [])
  | u :: us, lastError =>
      if u = "" then sendAttempts exec us lastError
      else
        match exec u with
        | .ok v => (.ok v, [u])
        | .error e =>
            let r := sendAttempts exec us (some e)
            (r.1, u :: r.2)

/-- The URL sequence visited by the attempt loop:
`list[(startIndex + i) % n]` for `i = 0 … n-1`. -/
def rotList (list : List String) (startIndex : Nat) : List String :=
  (List.range list.length).map fun i =>
    list.getD ((startIndex + i) % list.length) ""

/-- The final `lastError` after all URLs of `good` failed. -/
def lastAttemptError {E V : Type} (exec : String → Except E V) (le : Option E)
    (good : List String) : Option E :=
  match good.getLast? with
  | none => le
  | some u =>
      match exec u with
      | .error e => some e
      | .ok _ => le

theorem sendLoop_eq_sendAttempts {E V : Type} (exec : String → Except E V)
    (list : List String) (startIndex : Nat) :
    ∀ (rem : Nat), rem ≤ list.length → ∀ (le : Option E),
      sendLoop exec list startIndex rem le
        = sendAttempts exec
            ((List.range' (list.length - rem) rem).map fun i =>
              list.getD ((startIndex + i) % list.length) "") le := by
  intro rem
  induction rem with
  | zero => intro _ le; rfl
  | succ rem ih =>
      intro hle le
      have harg : list.length - (rem + 1) + 1 = list.length - rem := by omega
      have hsplit : List.range' (list.length - (rem + 1)) (rem + 1)
          = (list.length - (rem + 1)) :: List.range' (list.length - rem) rem := by
        rw [List.range'_succ, harg]
      rw [hsplit, List.map_cons]
      show (if list.getD ((startIndex + (list.length - (rem + 1))) % list.length) ""
            = "" then
          sendLoop exec list startIndex rem le
        else
          match exec (list.getD ((startIndex + (list.length - (rem + 1)))
              % list.length) "") with
          | .ok v => (.ok v, [list.getD ((startIndex + (list.length - (rem + 1)))
              % list.length) ""])
          | .error e =>
              let r := sendLoop exec list startIndex rem (some e)
              (r.1, list.getD ((startIndex + (list.length - (rem + 1)))
                % list.length) "" :: r.2))
        = (if list.getD ((startIndex + (list.length - (rem + 1))) % list.length) ""
            = "" then
          sendAttempts exec ((List.range' (list.length - rem) rem).map fun i =>
            list.getD ((startIndex + i) % list.length) "") le
        else
          match exec (list.getD ((startIndex + (list.length - (rem + 1)))
              % list.length) "") with
          | .ok v => (.ok v, [list.getD ((startIndex + (list.length - (rem + 1)))
              % list.length) ""])
          | .error e =>
              let r := sendAttempts exec ((List.range' (list.length - rem) rem).map
                fun i => list.getD ((startIndex + i) % list.length) "") (some e)
              (r.1, list.getD ((startIndex + (list.length - (rem + 1)))
                % list.length) "" :: r.2))
      by_cases hu : list.getD ((startIndex + (list.length - (rem + 1)))
          % list.length) "" = ""
      · rw [if_pos hu, if_pos hu, ih (by omega) le]
      · rw [if_neg hu, if_neg hu]
        cases exec (list.getD ((startIndex + (list.length - (rem + 1)))
            % list.length) "") with
        | ok v => rfl
        | error e =>
            show ((sendLoop exec list startIndex rem (some e)).1,
                list.getD ((startIndex + (list.length - (rem + 1))) % list.length) ""
                  :: (sendLoop exec list startIndex rem (some e)).2)
              = ((sendAttempts exec ((List.range' (list.length - rem) rem).map
                    fun i => list.getD ((startIndex + i) % list.length) "") (some e)).1,
                 list.getD ((startIndex + (list.length - (rem + 1))) % list.length) ""
                  :: (sendAttempts exec ((List.range' (list.length - rem) rem).map
                    fun i => list.getD ((startIndex + i) % list.length) "") (some e)).2)
            rw [ih (by omega) (some e)]

theorem sendAttempts_char {E V : Type} (exec : String → Except E V) :
    ∀ (l : List String) (le : Option E),
      List.IsPrefix (sendAttempts exec l le).2 (l.filter fun u => !(u == ""))
      ∧ (match (l.filter fun u => !(u == "")).find? (fun u => (exec u).isOk) with
         | some u =>
             ∃ v, exec u = .ok v ∧ (sendAttempts exec l le).1 = .ok v
               ∧ (sendAttempts exec l le).2
                 = ((l.filter fun u => !(u == "")).takeWhile
                     fun u => !(exec u).isOk) ++ [u]
         | none =>
             (sendAttempts exec l le).1
               = .error (.allEndpointsFailed
                   (lastAttemptError exec le (l.filter fun u => !(u == ""))))
             ∧ (sendAttempts exec l le).2 = l.filter fun u => !(u == "")) := by
  intro l
  induction l with
  | nil =>
      intro le
      exact ⟨List.nil_prefix, rfl, rfl⟩
  | cons u us ih =>
      intro le
      by_cases hu : u = ""
      · have hfil : ((u :: us).filter fun x => !(x == ""))
            = us.filter fun x => !(x == "") := by
          simp [List.filter_cons, hu]
        have hsa : sendAttempts exec (u :: us) le = sendAttempts exec us le := by
          show (if u = "" then sendAttempts exec us le
            else
              match exec u with
              | .ok v => (Except.ok v, [u])
              | .error e =>
                  let r := sendAttempts exec us (some e)
                  (r.1, u :: r.2)) = sendAttempts exec us le
          rw [if_pos hu]
        rw [hfil, hsa]
        exact ih le
      · have hfil : ((u :: us).filter fun x => !(x == ""))
            = u :: us.filter fun x => !(x == "") := by
          simp [List.filter_cons, hu]
        rw [hfil]
        cases hexec : exec u with
        | ok v =>
            have hsa : sendAttempts exec (u :: us) le = (.ok v, [u]) := by
              show (if u = "" then sendAttempts exec us le
                else
                  match exec u with
                  | .ok v => (Except.ok v, [u])
                  | .error e =>
                      let r := sendAttempts exec us (some e)
                      (r.1, u :: r.2)) = ((Except.ok v : Except (SendError E) V), [u])
              rw [if_neg hu]
              simp only [hexec]
            have hppos : ((fun x => (exec x).isOk) u) = true := by
              show (exec u).isOk = true
              rw [hexec]
              rfl
            have hfind : (u :: us.filter fun x => !(x == "")).find?
                (fun x => (exec x).isOk) = some u :=
              List.find?_cons_of_pos _ hppos
            have hpneg : ¬ (((fun x => !(exec x).isOk) u) = true) := by
              show ¬ ((!(exec u).isOk) = true)
              rw [hexec]
              exact fun hc => Bool.noConfusion hc
            rw [hsa, hfind]
            refine ⟨⟨us.filter fun x => !(x == ""), rfl⟩, v, hexec, rfl, ?_⟩
            rw [@List.takeWhile_cons_of_neg String (fun x => !(exec x).isOk) u
              (List.filter (fun x => !(x == "")) us) hpneg]
            rfl
        | error e =>
            have hsa : sendAttempts exec (u :: us) le
                = ((sendAttempts exec us (some e)).1,
                   u :: (sendAttempts exec us (some e)).2) := by
              show (if u = "" then sendAttempts exec us le
                else
                  match exec u with
                  | .ok v => (Except.ok v, [u])
                  | .error e =>
                      let r := sendAttempts exec us (some e)
                      (r.1, u :: r.2))
                = ((sendAttempts exec us (some e)).1,
                   u :: (sendAttempts exec us (some e)).2)
              rw [if_neg hu]
              simp only [hexec]
            have hpneg : ¬ (((fun x => (exec x).isOk) u) = true) := by
              show ¬ ((exec u).isOk = true)
              rw [hexec]
              exact fun hc => Bool.noConfusion hc
            have hppos : ((fun x => !(exec x).isOk) u) = true := by
              show (!(exec u).isOk) = true
              rw [hexec]
              rfl
            have hfind : (u :: us.filter fun x => !(x == "")).find?
                (fun x => (exec x).isOk)
                = (us.filter fun x => !(x == "")).find? (fun x => (exec x).isOk) :=
              List.find?_cons_of_neg _ hpneg
            have hih := ih (some e)
            rw [hsa, hfind]
            refine ⟨?_, ?_⟩
            · obtain ⟨t, ht⟩ := hih.1
              exact ⟨t, by rw [List.cons_append, ht]⟩
            · cases hf : (us.filter fun x => !(x == "")).find?
                  (fun x => (exec x).isOk) with
              | some u2 =>
                  rw [hf] at hih
                  obtain ⟨-, v2, hex2, hr1, hr2⟩ := hih
                  refine ⟨v2, hex2, hr1, ?_⟩
                  rw [hr2, @List.takeWhile_cons_of_pos String (fun x => !(exec x).isOk) u
                    (List.filter (fun x => !(x == "")) us) hppos]
                  rfl
              | none =>
                  rw [hf] at hih
                  obtain ⟨-, hr1, hr2⟩ := hih
                  have hle2 : lastAttemptError exec le
                      (u :: us.filter fun x => !(x == ""))
                      = lastAttemptError exec (some e)
                          (us.filter fun x => !(x == "")) := by
                    cases hg : us.filter (fun x => !(x == "")) with
                    | nil =>
                        show (match ([u] : List String).getLast? with
                          | none => le
                          | some u0 =>
                              match exec u0 with
                              | .error e0 => some e0
                              | .ok _ => le) = _
                        simp only [List.getLast?_singleton, hexec]
                        rfl
                    | cons g gs =>
                        unfold lastAttemptError
                        rw [List.getLast?_cons_cons]
                        obtain ⟨x, hx⟩ : ∃ x, (g :: gs).getLast? = some x := by
                          cases hgg : (g :: gs).getLast? with
                          | none => exact absurd hgg (by simp)
                          | some x => exact ⟨x, rfl⟩
                        rw [hx]
                        have hxmem : x ∈ us.filter fun c => !(c == "") := by
                          rw [hg]
                          exact List.mem_of_getLast?_eq_some hx
                        have hxfail := List.find?_eq_none.mp hf x hxmem
                        show (match exec x with
                          | Except.error e0 => some e0
                          | Except.ok _ => le)
                          = (match exec x with
                          | Except.error e0 => some e0
                          | Except.ok _ => some e)
                        cases hex : exec x with
                        | ok v2 =>
                            exfalso
                            apply hxfail
                            show (exec x).isOk = true
                            rw [hex]
                            rfl
                        | error e2 => rfl
                  rw [hle2]
                  exact ⟨hr1, by rw [hr2]⟩

theorem rotList_eq_rotate (list : List String) (startIndex : Nat) :
    rotList list startIndex = list.rotate startIndex := by
  apply List.ext_getElem
  · simp [rotList, List.length_rotate]
  · intro i h1 h2
    simp only [rotList, List.getElem_map, List.getElem_range]
    rw [List.getElem_rotate]
    have hmod : (i + startIndex) % list.length < list.length := by
      apply Nat.mod_lt
      rw [List.length_rotate] at h2
      omega
    rw [List.getD_eq_getElem?_getD, Nat.add_comm startIndex i,
      List.getElem?_eq_getElem hmod]
    rfl

/-- C7: `send` on an empty ranked list fails with `noEndpoints` without
attempting any URL and without touching the round-robin state; on a
non-empty list it walks the rotation of the list that starts at the
round-robin offset (a permutation of the list, so each list position is
considered exactly once), attempts its non-empty URLs in that order, stops
at and returns the first successful attempt, and if every attempt fails it
fails with `allEndpointsFailed` carrying the last attempt's error. -/
theorem C7_send_fallback_characterization {E V : Type} (exec : String → Except E V)
    (chainId : Nat) (list : List String) (st : DispatchState) :
    (list = [] → send exec chainId list st = (.error .noEndpoints, [], st))
    ∧ (list ≠ [] →
        List.Perm (rotList list (sendStartIndex st chainId list.length)) list
        ∧ List.IsPrefix (send exec chainId list st).2.1
            ((rotList list (sendStartIndex st chainId list.length)).filter
              fun u => !(u == ""))
        ∧ (match ((rotList list (sendStartIndex st chainId list.length)).filter
              fun u => !(u == "")).find? (fun u => (exec u).isOk) with
           | some u =>
               ∃ v, exec u = .ok v ∧ (send exec chainId list st).1 = .ok v
                 ∧ (send exec chainId list st).2.1
                   = (((rotList list (sendStartIndex st chainId list.length)).filter
                       fun u => !(u == "")).takeWhile fun u => !(exec u).isOk) ++ [u]
           | none =>
               (send exec chainId list st).1
                 = .error (.allEndpointsFailed (lastAttemptError exec none
                     ((rotList list (sendStartIndex st chainId list.length)).filter
                       fun u => !(u == ""))))
               ∧ (send exec chainId list st).2.1
                 = (rotList list (sendStartIndex st chainId list.length)).filter
                     fun u => !(u == ""))) := by
  constructor
  · intro hnil
    subst hnil
    rfl
  · intro hne
    have hn : list.length ≠ 0 := fun hc => hne (List.length_eq_zero.mp hc)
    have hsend : send exec chainId list st
        = ((sendLoop exec list (sendStartIndex st chainId list.length)
              list.length none).1,
           (sendLoop exec list (sendStartIndex st chainId list.length)
              list.length none).2,
           (sendRoundRobin st chainId list.length).2) := by
      unfold send
      rw [if_neg hn]
      rfl
    have hloop : sendLoop exec list (sendStartIndex st chainId list.length)
        list.length none
        = sendAttempts exec (rotList list (sendStartIndex st chainId list.length))
            none := by
      rw [sendLoop_eq_sendAttempts exec list (sendStartIndex st chainId list.length)
        list.length (le_refl _) none]
      congr 1
      rw [rotList, Nat.sub_self, ← List.range_eq_range']
    have hchar := sendAttempts_char exec
      (rotList list (sendStartIndex st chainId list.length)) none
    refine ⟨?_, ?_, ?_⟩
    · rw [rotList_eq_rotate]
      exact List.rotate_perm list _
    · rw [hsend, hloop]
      exact hchar.1
    · rw [hsend, hloop]
      exact hchar.2

/-! ### Witnesses: the hypothesis-bearing theorems instantiated at concrete
inputs. -/

theorem C1_amended_witness :
    (getRankedRpcList c1Probe ["https://a"] 100 1000 (initialCacheState 3600000)).1 = []
    ∧ (getRankedRpcList c1Probe ["https://a"] 100 1000
        (getRankedRpcList c1Probe ["https://a"] 100 1000
          (initialCacheState 3600000)).2.1).2.2 = 1 := by
  have h := C1_amended_empty_ranking_reprobes c1Probe ["https://a"] 100 1000 3600000
    (by decide) (by decide)
  exact ⟨h.1, h.2.2.2.1⟩

theorem C2_amended_witness :
    executeRpcCall 10000 (.resp 204 "No Content" { result := none, error := none })
      = .ok none :=
  C2_amended_missing_result_returned 10000 204 "No Content"
    { result := none, error := none } (by decide) rfl rfl

/-- A concrete probe map used by the ranking witnesses. -/
def demoMap : LatencyMap :=
  [("https://a", { url := "https://a", latency := some 50, status := .ok }),
   ("https://b", { url := "https://b", latency := some 30, status := .syncing }),
   ("https://c", { url := "https://c", latency := none, status := .timeout,
                   error := some "x" })]

theorem C4_witness :
    isAcceptable
      ({ url := "https://b", latency := some 30, status := .syncing,
         error := none } : LatencyTestResult).status = true :=
  (C4_ranking_invariants demoMap).2.2.1
    { url := "https://b", latency := some 30, status := .syncing, error := none }
    (by decide)

/-- A settle oracle whose probe of `https://b` rejects unexpectedly. -/
def c9Settle : String → SettledOutcome := fun u =>
  if u = "https://b" then .rejected none
  else .fulfilled { url := u, latency := some 5, status := .ok }

theorem C9_witness :
    recordGet (testRpcUrls c9Settle ["https://a", "https://b"]) "https://b"
      = some { url := "https://b", latency := none, status := .network_error,
               error := some "Unknown rejection" } := by
  have h := (C9_prober_settled_join c9Settle ["https://a", "https://b"]).2.2.2
    "https://b" none (by decide) (by decide)
  exact h

theorem C6_witness :
    sendStarts (fun _ => (Except.ok 1 : Except Unit Nat)) 100
        ["https://a", "https://b"] 3 ⟨[]⟩
      = [0, 1, 0] := by
  rw [(C6_round_robin_starts (fun _ => (Except.ok 1 : Except Unit Nat)) 100
    ["https://a", "https://b"] ⟨[]⟩ 3 (by decide)).2]
  decide

/-- A call oracle under which `https://a` fails and `https://b` succeeds. -/
def c7Exec : String → Except String Nat := fun u =>
  if u = "https://b" then .ok 7 else .error "boom"

theorem C7_witness :
    List.IsPrefix (send c7Exec 100 ["https://a", "https://b"]
        (⟨[]⟩ : DispatchState)).2.1
      ((rotList ["https://a", "https://b"]
        (sendStartIndex (⟨[]⟩ : DispatchState) 100
          (["https://a", "https://b"] : List String).length)).filter
        fun u => !(u == "")) :=
  ((C7_send_fallback_characterization c7Exec 100 ["https://a", "https://b"]
    ⟨[]⟩).2 (by decide)).2.1

/-- A probe oracle under which every URL is `ok` with a small latency. -/
def c8Probe : List String → LatencyMap := fun urls =>
  urls.map fun u => (u, { url := u, latency := some 5, status := .ok })

/-- A disabled-cache manager state. -/
def c8State : CacheManagerState :=
  { cache := [], cacheLoaded := false, kv := none, disabled := true,
    cacheTtlMs := 1000 }

theorem C8_witness :
    (getRankedRpcList c8Probe ["https://a"] 100 0 c8State).2.2 = 1
    ∧ (getRankedRpcList c8Probe ["https://a"] 100 0
        (getRankedRpcList c8Probe ["https://a"] 100 0 c8State).2.1).2.2 = 1
    ∧ updateChainCache c8State 100 [] none 0 = c8State := by
  have h := C8_disabled_cache c8Probe ["https://a"] 100 0 c8State rfl (by decide)
  exact ⟨h.2.2.2.1, h.2.2.2.2, h.2.1 100 [] none 0⟩

/-- A valid cached entry for chain 100 serving a URL that is in no
whitelist. -/
def c10Entry : ChainCache :=
  { fastestRpc := some "https://cached",
    latencyMap := [("https://cached",
      { url := "https://cached", latency := some 5, status := .ok })],
    lastTested := 500 }

def c10State : CacheManagerState :=
  { cache := [(100, c10Entry)], cacheLoaded := true, kv := some [(100, c10Entry)],
    disabled := false, cacheTtlMs := 3600000 }

theorem C10_witness :
    getRankedRpcList (fun _ => []) [] 100 600 c10State
      = (["https://cached"], c10State, 0) := by
  have h := (C10_valid_cache_ignores_whitelist (fun _ => []) (fun _ => [])
    [] [] 100 600 c10State (by decide)).1
  rw [h]
  decide

end Permit2Rpc
